import Mathlib

/-!
Verification development for the SourceMod minimal YAML parser
(`core/yaml-cpp/include/yaml-cpp/yaml.h`, `core/yaml-cpp/src/yaml.cpp`).

The document tree (`YAML::Node`) is embedded as a mutual inductive:
a node owns a list of children and an optional key side-node
(`map_key_`), exactly the fields of the C++ class that influence
observable behaviour (`type_`, `tag_`, `scalar_value_`, the
`first_child_`/`next_sibling_` intrusive list rendered as a list, and
`map_key_`).  C strings are embedded as `List Char`; machine pointers
disappear because ownership in the source is strict tree ownership.

The parser (`Parser::Load`) is embedded as a fuel-based loop over the
remaining input suffix; the cursor fields `line`/`column` of
`ParseState` are write-only in the source and are dropped, and
`current_key`/`in_sequence` are never read.  The `current` pointer is
embedded as a path from the root, since `ProcessLine` only ever moves
it to a freshly appended child, into a node's key side-node, or to a
node's last child.

Inputs are embedded as the character list of the C string handed to
`Load`; a C string cannot contain an embedded NUL (`Load` measures it
with `strlen`), so the lists quantified over here are the NUL-free
texts, and `LoadFile` models `content[read] = '\0'` followed by
`strlen` as truncation of the read bytes at the first NUL.
-/

namespace SMYaml

inductive NType where
  | tNull
  | tScalar
  | tSequence
  | tMap
deriving DecidableEq, Repr

mutual
/-- The type `YAML::Node`: `type_`, `tag_`, `scalar_value_`, children, `map_key_`. -/
inductive Node where
  | mk (type_ : NType) (tag_ : Option (List Char)) (scalar_value_ : Option (List Char))
       (children : NodeList) (map_key_ : NodeOpt)
deriving Repr
/-- The `first_child_`/`next_sibling_` intrusive list of child nodes. -/
inductive NodeList where
  | nil
  | cons (hd : Node) (tl : NodeList)
deriving Repr
/-- An optional owned side node (`map_key_` is a possibly-null owning pointer). -/
inductive NodeOpt where
  | none
  | some (n : Node)
deriving Repr
end

def Node.type_ : Node → NType
  | .mk t _ _ _ _ => t

def Node.tag_ : Node → Option (List Char)
  | .mk _ tg _ _ _ => tg

def Node.scalar_value_ : Node → Option (List Char)
  | .mk _ _ sc _ _ => sc

def Node.children : Node → NodeList
  | .mk _ _ _ cs _ => cs

def Node.map_key_ : Node → NodeOpt
  | .mk _ _ _ _ k => k

/-- Constructor `Node::Node(const char* tag = nullptr)` with no tag: a fresh null node. -/
def nilNode : Node := .mk .tNull Option.none Option.none .nil .none

def NodeOpt.isSome : NodeOpt → Bool
  | .none => false
  | .some _ => true

def NodeList.length : NodeList → Nat
  | .nil => 0
  | .cons _ t => 1 + t.length

/-- Method `AddChild`: append at the tail of the sibling list. -/
def NodeList.append : NodeList → Node → NodeList
  | .nil, c => .cons c .nil
  | .cons h t, c => .cons h (t.append c)

def NodeList.lastO : NodeList → NodeOpt
  | .nil => .none
  | .cons h .nil => .some h
  | .cons _ (.cons h t) => NodeList.lastO (.cons h t)

def NodeList.toList : NodeList → List Node
  | .nil => []
  | .cons h t => h :: t.toList

mutual
/-- Copy constructor `Node::Node(const Node&)`: duplicates `type_`/`tag_`/`scalar_value_` and
deep-copies the children in order, but initialises `map_key_` to null and
never copies it. -/
def copyNode : Node → Node
  | .mk t tg sc cs _ => .mk t tg sc (copyList cs) .none
def copyList : NodeList → NodeList
  | .nil => .nil
  | .cons h t => .cons (copyNode h) (copyList t)
end

/-- Queries `Node::GetType`/`IsNull`. -/
def Node.IsNull (n : Node) : Bool := n.type_ = NType.tNull

def Node.IsScalar (n : Node) : Bool := n.type_ = NType.tScalar

def Node.IsMap (n : Node) : Bool := n.type_ = NType.tMap

/-- Accessor `as_string()`: the scalar text, or empty when unset. -/
def Node.as_string (n : Node) : List Char := n.scalar_value_.getD []

/-- The C `isspace` predicate in the default locale. -/
def isCSpace (c : Char) : Bool :=
  c = ' ' || c = '\t' || c = '\n' || c = '\x0b' || c = '\x0c' || c = '\x0d'

/-- A decimal digit character. -/
def isDigitC (c : Char) : Bool := 48 ≤ c.toNat && c.toNat ≤ 57

/-- Digit accumulation part of C `atoi`. -/
def atoiDigits : List Char → Nat → Nat
  | [], acc => acc
  | c :: r, acc => if isDigitC c then atoiDigits r (acc * 10 + (c.toNat - 48)) else acc

/-- The C `atoi`: leading whitespace, optional sign, then decimal digits. -/
def atoiM (s : List Char) : Int :=
  match s.dropWhile isCSpace with
  | [] => 0
  | c :: r =>
      if c = '-' then -(atoiDigits r 0 : Int)
      else if c = '+' then (atoiDigits r 0 : Int)
      else (atoiDigits (c :: r) 0 : Int)

/-- Accessor `as_int()`: `atoi` of the scalar text, `0` when unset. -/
def Node.as_int (n : Node) : Int :=
  match n.scalar_value_ with
  | Option.none => 0
  | Option.some s => atoiM s

/-- Accessor `as_bool()`: true iff the scalar text is set and equals `true`, `yes` or `1`. -/
def Node.as_bool (n : Node) : Bool :=
  match n.scalar_value_ with
  | Option.none => false
  | Option.some s => s = "true".data || s = "yes".data || s = "1".data

/-- Method `Node::size()`: counts the children whose `map_key_` is unset. -/
def sizeAux : NodeList → Nat
  | .nil => 0
  | .cons h t => (if h.map_key_.isSome then 0 else 1) + sizeAux t

def Node.sizeN (n : Node) : Nat := sizeAux n.children

/-- Positional `Node::operator[](size_t)`: walk the children skipping keyed ones; the
match is returned by value, i.e. through the copy constructor. -/
def getIdxAux : NodeList → Nat → Node
  | .nil, _ => nilNode
  | .cons h t, i =>
      if h.map_key_.isSome then getIdxAux t i
      else if i = 0 then copyNode h else getIdxAux t (i - 1)

def Node.getIdx (n : Node) (i : Nat) : Node := getIdxAux n.children i

/-- Keyed `Node::operator[](const char*)`: first child whose key side-node carries
scalar text equal to the key; returned by value (copy constructor). -/
def getKeyAux : NodeList → List Char → Node
  | .nil, _ => nilNode
  | .cons h t, k =>
      match h.map_key_ with
      | .some kn =>
          match kn.scalar_value_ with
          | Option.some ks => if ks = k then copyNode h else getKeyAux t k
          | Option.none => getKeyAux t k
      | .none => getKeyAux t k

def Node.getKey (n : Node) (k : List Char) : Node := getKeyAux n.children k

/-- Method `Node::HasKey`. -/
def hasKeyAux : NodeList → List Char → Bool
  | .nil, _ => false
  | .cons h t, k =>
      match h.map_key_ with
      | .some kn =>
          match kn.scalar_value_ with
          | Option.some ks => if ks = k then true else hasKeyAux t k
          | Option.none => hasKeyAux t k
      | .none => hasKeyAux t k

def Node.HasKey (n : Node) (k : List Char) : Bool := hasKeyAux n.children k

/-- The `snprintf(buffer, 32, "%d", value)` digits, least significant first. -/
def digitsRevAux : Nat → Nat → List Nat
  | 0, _ => []
  | fuel + 1, n => if n < 10 then [n] else (n % 10) :: digitsRevAux fuel (n / 10)

def natToChars (n : Nat) : List Char :=
  ((digitsRevAux (n + 1) n).map (fun d => Char.ofNat (48 + d))).reverse

def intToChars (v : Int) : List Char :=
  if v < 0 then '-' :: natToChars (-v).toNat else natToChars v.toNat

/-- Assignment `Node::operator=(const char*)`: `Clear()` (drop tag, scalar, children and
key), then become a scalar holding the text. -/
def assignStr (_n : Node) (v : List Char) : Node :=
  .mk .tScalar Option.none (Option.some v) .nil .none

/-- Assignment `Node::operator=(int)`: `Clear()` then scalar text `%d` of the value. -/
def assignInt (_n : Node) (v : Int) : Node :=
  .mk .tScalar Option.none (Option.some (intToChars v)) .nil .none

/-- Assignment `Node::operator=(bool)`: `Clear()` then scalar text `true`/`false`. -/
def assignBool (_n : Node) (v : Bool) : Node :=
  .mk .tScalar Option.none (Option.some (if v then "true".data else "false".data)) .nil .none

/-!  Parser embedding.

`ParseState.current` is a path from `root`: `ProcessLine` moves it only to a
freshly appended child (`.child i` = i-th child), into the current node's key
side-node (`.key`), or to the current node's last child.  The indent stack is
the list `indent_stack[indent_top], …, indent_stack[0]`, head = top; it starts
as `[-1]` (`indent_stack[0] = -1`, `indent_top = 0`).
-/

inductive Step where
  | child (i : Nat)
  | key
deriving DecidableEq, Repr

def getChildD : NodeList → Nat → Node
  | .nil, _ => nilNode
  | .cons h _, 0 => h
  | .cons _ t, i + 1 => getChildD t i

/-- Dereference a path (total; paths built by the parser are always valid). -/
def getAtD : List Step → Node → Node
  | [], n => n
  | .child i :: p, n => getAtD p (getChildD n.children i)
  | .key :: p, n =>
      match n.map_key_ with
      | .some kn => getAtD p kn
      | .none => getAtD p nilNode

def setChild : NodeList → Nat → Node → NodeList
  | .nil, _, _ => .nil
  | .cons _ t, 0, c => .cons c t
  | .cons h t, i + 1, c => .cons h (setChild t i c)

/-- Method `AddChild` performed through the `current` pointer: append `c` to the
children of the node addressed by the path. -/
def appendAt : List Step → Node → Node → Node
  | [], .mk t tg sc cs k, c => .mk t tg sc (cs.append c) k
  | .child i :: p, .mk t tg sc cs k, c =>
      .mk t tg sc (setChild cs i (appendAt p (getChildD cs i) c)) k
  | .key :: p, .mk t tg sc cs k, c =>
      match k with
      | .none => .mk t tg sc cs .none
      | .some kn => .mk t tg sc cs (.some (appendAt p kn c))

structure PState where
  root : Node
  path : List Step
  stack : List Int
deriving Repr

/-- The `ReadToEndOfLine` body: collect up to 4095 characters, stopping before a
newline; `i` counts characters already stored in `line_buffer`. -/
def readLineAux : Nat → List Char → List Char × List Char
  | _, [] => ([], [])
  | i, c :: rest =>
      if c = '\n' then ([], c :: rest)
      else if 4095 ≤ i then ([], c :: rest)
      else
        let br := readLineAux (i + 1) rest
        (c :: br.1, br.2)

/-- The final newline skip of `ReadToEndOfLine`. -/
def dropNl : List Char → List Char
  | '\n' :: r => r
  | r => r

/-- Method `ReadToEndOfLine`: read the buffer, then consume one newline if present. -/
def readLine (rem : List Char) : List Char × List Char :=
  ((readLineAux 0 rem).1, dropNl (readLineAux 0 rem).2)

/-- Method `SkipWhitespace` (the `line`/`column` updates are write-only). -/
def skipWs (rem : List Char) : List Char := rem.dropWhile isCSpace

/-- Method `GetIndent`: leading spaces count 1, tabs count 4. -/
def getIndentM : List Char → Int
  | [] => 0
  | c :: r => if c = ' ' then 1 + getIndentM r else if c = '\t' then 4 + getIndentM r else 0

/-- Method `TrimTrailingWhitespace`. -/
def trimTrailing (s : List Char) : List Char :=
  (s.reverse.dropWhile isCSpace).reverse

/-- One round of the indent-popping `while` in `ProcessLine`: pop the stack and
move `current` into its key side-node (when it has one), then to its last
child when that last child is keyed. -/
def popStep (root : Node) (path : List Step) : List Step :=
  let path1 :=
    match (getAtD path root).map_key_ with
    | .some _ => path ++ [Step.key]
    | .none => path
  let cur1 := getAtD path1 root
  match cur1.children.lastO with
  | .some lastc =>
      if lastc.map_key_.isSome then
        path1 ++ [Step.child (cur1.children.length - 1)]
      else path1
  | .none => path1

/-- The indent-popping loop: `while (indent_top > 0 && indent <= stack[top])`. -/
def popLoop (root : Node) (indent : Int) : List Int → List Step → List Int × List Step
  | t :: r :: rs, path =>
      if indent ≤ t then popLoop root indent (r :: rs) (popStep root path)
      else (t :: r :: rs, path)
  | s, path => (s, path)

/-- The scan `while (*p && *p != ':' && !isspace(*p)) p++`: the text before the first
colon, whitespace character, or end of line. -/
def lineKeyFull (line : List Char) : List Char :=
  line.takeWhile (fun c => ¬(c = ':' ∨ isCSpace c = true))

/-- The test `bool has_colon = (*p == ':')`. -/
def lineHasColon (line : List Char) : Bool :=
  (line.drop (lineKeyFull line).length).head? = some ':'

/-- The `value_start` pointer: past the colon (when present) and any following whitespace,
else the scan position `p` itself. -/
def lineValueStart (line : List Char) : List Char :=
  if lineHasColon line then
    ((line.drop (lineKeyFull line).length).drop 1).dropWhile isCSpace
  else line.drop (lineKeyFull line).length

/-- The test `state->indent_top >= 0 && indent > state->indent_stack[state->indent_top]`
(the stack list is never empty: `indent_top >= 0` always holds). -/
def topGtB (stack1 : List Int) (indent : Int) : Bool :=
  match stack1 with
  | t :: _ => indent > t
  | [] => false

/-- The mapping-opener test of `ProcessLine`. -/
def openerCond (line : List Char) (stack1 : List Int) (indent : Int) : Prop :=
  lineHasColon line = true ∧
    (lineValueStart line = [] ∨ (lineValueStart line).head? = some '#' ∨
      topGtB stack1 indent = true)

instance (line : List Char) (stack1 : List Int) (indent : Int) :
    Decidable (openerCond line stack1 indent) := by
  unfold openerCond; infer_instance

/-- The test `*value_start == '-' && *(value_start + 1) == ' '`. -/
def seqItemCond (vs : List Char) : Prop :=
  vs.head? = some '-' ∧ vs.tail.head? = some ' '

instance (vs : List Char) : Decidable (seqItemCond vs) := by
  unfold seqItemCond; infer_instance

/-- Method `ProcessLine`. -/
def processLine (st : PState) (line : List Char) (indent : Int) : PState :=
  let key := (lineKeyFull line).take 1023
  let vs := lineValueStart line
  let ps := popLoop st.root indent st.stack st.path
  if openerCond line ps.1 indent then
    -- mapping opener: Map node holding the key text, with a scalar key side-node
    let keyNode : Node := .mk .tScalar Option.none (Option.some key) .nil .none
    let newNode : Node := .mk .tMap Option.none (Option.some key) .nil (.some keyNode)
    let curLen := (getAtD ps.2 st.root).children.length
    { root := appendAt ps.2 st.root newNode
      path := ps.2 ++ [Step.child curLen]
      stack := indent :: ps.1 }
  else if seqItemCond vs then
    -- sequence item: skip the `- ` marker, trim, append a keyless scalar leaf
    let value := trimTrailing ((vs.drop 2).take 1023)
    let seqNode : Node := .mk .tScalar Option.none (Option.some value) .nil .none
    { root := appendAt ps.2 st.root seqNode, path := ps.2, stack := ps.1 }
  else
    -- flat key/value entry: scalar leaf with a scalar key side-node
    let value := trimTrailing (vs.take 1023)
    let keyNode : Node := .mk .tScalar Option.none (Option.some key) .nil .none
    let valNode : Node := .mk .tScalar Option.none (Option.some value) .nil (.some keyNode)
    { root := appendAt ps.2 st.root valNode, path := ps.2, stack := ps.1 }

/-- The `while (state.position < state.length)` loop of `Parser::Load`,
fuel-based; the final `return *state.root` copies the tree. -/
def loadLoop : Nat → PState → List Char → Node
  | 0, st, _ => copyNode st.root
  | fuel + 1, st, rem =>
      if rem = [] then copyNode st.root
      else
        let br := readLine rem
        let buf := br.1
        let rem2 := skipWs br.2
        if rem2 = [] ∨ buf = [] ∨ buf.head? = some '#' then loadLoop fuel st rem2
        else loadLoop fuel (processLine st buf (getIndentM rem2)) rem2

def initPS : PState := ⟨nilNode, [], [(-1 : Int)]⟩

/-- Method `Parser::Load`: the loop runs at most `length` iterations since every
iteration consumes at least one character. -/
def load (content : List Char) : Node := loadLoop (content.length + 1) initPS content

/-- The `Load` loop started at a loop boundary with the canonical sufficient
fuel (one more than the remaining length). -/
def loadRun (st : PState) (rem : List Char) : Node := loadLoop (rem.length + 1) st rem

/-- The text ends with a newline (used to mark clean line boundaries). -/
def endsNl (l : List Char) : Prop := l.getLast? = some '\n'

/-- A comment line one character too long for the 4096-byte `line_buffer`. -/
def c5comment : List Char := '#' :: List.replicate 4095 'x'

def c5orig : List Char := "- a\n- b\n".data

/-- The input `c5orig` with the oversized comment line inserted between its two
entries. -/
def c5mod : List Char := "- a\n".data ++ c5comment ++ '\n' :: "- b\n".data

/-- The class `YAML::Exception`, carrying its message. -/
structure ExceptionM where
  message : List Char
deriving DecidableEq, Repr

/-- Environment for one `Parser::LoadFile` call: whether `fopen` succeeds, the
`ftell` size, whether `malloc` succeeds, and the bytes `fread` returns. -/
structure FileEnv where
  openOk : Bool
  fileSize : Nat
  allocOk : Bool
  bytesRead : List Char

/-- Method `Parser::LoadFile`: throw on `fopen` or `malloc` failure; otherwise
NUL-terminate after the bytes actually read (`content[read] = '\0'`) and
delegate to `Load`, which takes `strlen(content)`, i.e. the bytes up to the
first embedded NUL. -/
def loadFile (env : FileEnv) : Except ExceptionM Node :=
  if env.openOk = false then Except.error ⟨"Failed to open file".data⟩
  else if env.allocOk = false then Except.error ⟨"Failed to allocate memory".data⟩
  else Except.ok (load (env.bytesRead.takeWhile (fun c => c ≠ '\x00')))

def NodeOpt.isNone : NodeOpt → Bool
  | .none => true
  | .some _ => false

mutual
/-- No node in this tree (the node itself, or any descendant through
children) carries a key side-node. -/
def keylessB : Node → Bool
  | .mk _ _ _ cs k => k.isNone && keylessListB cs
def keylessListB : NodeList → Bool
  | .nil => true
  | .cons h t => keylessB h && keylessListB t
end

/-- The children whose `map_key_` is unset, in order: the traversal that
`size()` and positional `operator[]` share. -/
def unkeyed : NodeList → List Node
  | .nil => []
  | .cons h t => if h.map_key_.isSome then unkeyed t else h :: unkeyed t

def Node.unkeyedChildren (n : Node) : List Node := unkeyed n.children

/-- The internal tree `ProcessLine` builds for the single line `k: v`:
a scalar child holding `v` with a key side-node holding `k`. -/
def c3val : Node :=
  .mk .tScalar Option.none (Option.some "v".data) .nil
    (.some (.mk .tScalar Option.none (Option.some "k".data) .nil .none))

def c3doc : Node := .mk .tNull Option.none Option.none (.cons c3val .nil) .none

/-- A keyless child (of the shape the parser builds internally for a mapping
opener) whose own child carries a key side-node. -/
def c7grand : Node :=
  .mk .tScalar Option.none (Option.some "x".data) .nil
    (.some (.mk .tScalar Option.none (Option.some "kk".data) .nil .none))

def c7child : Node := .mk .tMap Option.none (Option.some "k".data) (.cons c7grand .nil) .none

def c7node : Node := .mk .tNull Option.none Option.none (.cons c7child .nil) .none

/-- A Null-kind child that carries a key side-node: a value of the `Node` data
type on which `HasKey` and keyed lookup disagree about nullness. -/
def c8child : Node :=
  .mk .tNull Option.none Option.none .nil
    (.some (.mk .tScalar Option.none (Option.some "k".data) .nil .none))

def c8node : Node := .mk .tMap Option.none Option.none (.cons c8child .nil) .none

/-- A `LoadFile` environment where `fopen` and `malloc` succeed but `fread`
returns fewer bytes than `ftell` reported. -/
def c9env : FileEnv := ⟨true, 10, true, "a".data⟩

/-!  Arithmetic helper lemmas for the `%d` / `atoi` round trip. -/

theorem digitsRevAux_lt10 : ∀ fuel n d, d ∈ digitsRevAux fuel n → d < 10 := by
  intro fuel
  induction fuel with
  | zero => intro n d h; simp [digitsRevAux] at h
  | succ f ih =>
      intro n d h
      simp only [digitsRevAux] at h
      by_cases hn : n < 10
      · simp [hn] at h; omega
      · simp [hn] at h
        rcases h with h | h
        · omega
        · exact ih _ _ h

theorem digitsRevAux_val : ∀ fuel n, n < fuel →
    (digitsRevAux fuel n).foldr (fun d a => a * 10 + d) 0 = n := by
  intro fuel
  induction fuel with
  | zero => intro n h; omega
  | succ f ih =>
      intro n h
      simp only [digitsRevAux]
      by_cases hn : n < 10
      · simp [hn]
      · simp only [hn, if_false, List.foldr_cons]
        have hd : n / 10 < f := by omega
        rw [ih _ hd]
        omega

theorem atoiDigits_append_digits : ∀ l acc, (∀ c ∈ l, isDigitC c = true) →
    atoiDigits l acc = l.foldl (fun a c => a * 10 + (c.toNat - 48)) acc := by
  intro l
  induction l with
  | nil => intro acc _; rfl
  | cons c r ih =>
      intro acc h
      have hc : isDigitC c = true := h c (List.mem_cons_self c r)
      simp only [atoiDigits, hc, if_true, List.foldl_cons]
      exact ih _ (fun x hx => h x (List.mem_cons_of_mem c hx))

theorem digit_char_toNat (d : Nat) (hd : d < 10) :
    (Char.ofNat (48 + d)).toNat = 48 + d ∧ isDigitC (Char.ofNat (48 + d)) = true ∧
      isCSpace (Char.ofNat (48 + d)) = false := by
  interval_cases d <;> exact ⟨by decide, by decide, by decide⟩

theorem natToChars_digits : ∀ n c, c ∈ natToChars n → isDigitC c = true := by
  intro n c hc
  simp only [natToChars, List.mem_reverse, List.mem_map] at hc
  obtain ⟨d, hd, rfl⟩ := hc
  exact (digit_char_toNat d (digitsRevAux_lt10 _ _ _ hd)).2.1

theorem isDigitC_not_special (c : Char) (hc : isDigitC c = true) :
    isCSpace c = false ∧ c ≠ '-' ∧ c ≠ '+' := by
  simp only [isDigitC, Bool.and_eq_true, decide_eq_true_eq] at hc
  obtain ⟨h1, h2⟩ := hc
  refine ⟨?_, ?_, ?_⟩
  · simp only [isCSpace, Bool.or_eq_false_iff, decide_eq_false_iff_not]
    refine ⟨⟨⟨⟨⟨?_, ?_⟩, ?_⟩, ?_⟩, ?_⟩, ?_⟩ <;>
      · intro h; rw [h] at h1; exact absurd h1 (by decide)
  · intro h; rw [h] at h1; exact absurd h1 (by decide)
  · intro h; rw [h] at h1; exact absurd h1 (by decide)

theorem natToChars_val (n : Nat) : atoiDigits (natToChars n) 0 = n := by
  rw [atoiDigits_append_digits _ _ (natToChars_digits n)]
  simp only [natToChars, List.foldl_reverse, List.foldr_map]
  have : ∀ l : List Nat, (∀ d ∈ l, d < 10) →
      l.foldr (fun c a => a * 10 + ((Char.ofNat (48 + c)).toNat - 48)) 0 =
      l.foldr (fun d a => a * 10 + d) 0 := by
    intro l
    induction l with
    | nil => intro _; rfl
    | cons d r ih =>
        intro h
        have hd : d < 10 := h d (List.mem_cons_self d r)
        simp only [List.foldr_cons, (digit_char_toNat d hd).1,
          ih (fun x hx => h x (List.mem_cons_of_mem d hx))]
        omega
  rw [this _ (digitsRevAux_lt10 (n + 1) n)]
  exact digitsRevAux_val (n + 1) n (Nat.lt_succ_self n)

theorem natToChars_ne_nil (n : Nat) : natToChars n ≠ [] := by
  simp only [natToChars]
  intro h
  rw [List.reverse_eq_nil_iff, List.map_eq_nil_iff] at h
  simp only [digitsRevAux] at h
  by_cases hn : n < 10 <;> simp [hn] at h

theorem atoiM_natToChars (n : Nat) : atoiM (natToChars n) = (n : Int) := by
  obtain ⟨c, r, hcr⟩ : ∃ c r, natToChars n = c :: r := by
    cases h : natToChars n with
    | nil => exact absurd h (natToChars_ne_nil n)
    | cons c r => exact ⟨c, r, rfl⟩
  have hc : isDigitC c = true := natToChars_digits n c (by rw [hcr]; exact List.mem_cons_self c r)
  obtain ⟨hcs, hminus, hplus⟩ := isDigitC_not_special c hc
  have hdrop : (natToChars n).dropWhile isCSpace = c :: r := by
    rw [hcr, List.dropWhile_cons, hcs]; rfl
  simp only [atoiM, hdrop, hminus, hplus, if_false]
  rw [← hcr, natToChars_val]

theorem atoiM_intToChars (v : Int) : atoiM (intToChars v) = v := by
  by_cases hv : v < 0
  · have h1 : isCSpace '-' = false := by decide
    simp only [intToChars, hv, if_true]
    simp only [atoiM, List.dropWhile_cons, h1]
    simp only [Bool.false_eq_true, if_false, if_true]
    rw [natToChars_val]
    omega
  · simp only [intToChars, hv, if_false]
    rw [atoiM_natToChars]
    omega

/-- Claim C10: (confirmed).  Scalar assignment round-trips through the typed
accessors and fully replaces the node's value: after `n = v` (int, within the
range of C `int`), `as_int()` returns `v`; after `n = b` (bool), `as_bool()`
returns `b`; and after any of the three scalar assignments the node is
Scalar-kind with no children and no tag. -/
theorem c10_assign_roundtrip (n : Node) (v : Int) (b : Bool) (s : List Char)
    (hlo : -(2 ^ 31) ≤ v) (hhi : v < 2 ^ 31) :
    (assignInt n v).as_int = v ∧
    (assignBool n b).as_bool = b ∧
    ((assignInt n v).IsScalar = true ∧ (assignInt n v).children = NodeList.nil ∧
      (assignInt n v).tag_ = Option.none) ∧
    ((assignBool n b).IsScalar = true ∧ (assignBool n b).children = NodeList.nil ∧
      (assignBool n b).tag_ = Option.none) ∧
    ((assignStr n s).IsScalar = true ∧ (assignStr n s).children = NodeList.nil ∧
      (assignStr n s).tag_ = Option.none) := by
  refine ⟨?_, ?_, ⟨rfl, rfl, rfl⟩, ⟨rfl, rfl, rfl⟩, ⟨rfl, rfl, rfl⟩⟩
  · show atoiM (intToChars v) = v
    exact atoiM_intToChars v
  · cases b <;> rfl

/-- Witness for `c10_assign_roundtrip` at `n = nilNode`, `v = -42`, `b = true`,
`s = "hi"`. -/
theorem c10_assign_roundtrip_witness :
    (assignInt nilNode (-42)).as_int = -42 ∧
    (assignBool nilNode true).as_bool = true ∧
    ((assignInt nilNode (-42)).IsScalar = true ∧
      (assignInt nilNode (-42)).children = NodeList.nil ∧
      (assignInt nilNode (-42)).tag_ = Option.none) ∧
    ((assignBool nilNode true).IsScalar = true ∧
      (assignBool nilNode true).children = NodeList.nil ∧
      (assignBool nilNode true).tag_ = Option.none) ∧
    ((assignStr nilNode "hi".data).IsScalar = true ∧
      (assignStr nilNode "hi".data).children = NodeList.nil ∧
      (assignStr nilNode "hi".data).tag_ = Option.none) :=
  c10_assign_roundtrip nilNode (-42) true "hi".data (by decide) (by decide)

/-!  C1: the flat-mapping example. -/

/-- Claim C1: (code_bug).  Evaluating `Parser::Load` on `"name: Test\ncount: 5\n"`.
The claim (and §8 of the spec) expects a root Mapping with two entries and
working keyed lookups; the code instead (a) leaves the root Null-kind,
(b) treats `name: Test` as a mapping opener because `GetIndent` runs after
`SkipWhitespace` and always returns 0, which makes `indent > indent_stack[top]`
hold, discarding the value `Test`, (c) discards the final line `count: 5`
because after reading it `position >= length` triggers the skip branch, and
(d) strips every key side-node when `return *state.root` copy-constructs the
result, so `size()` is 1 and both keyed lookups return a Null node. -/
theorem c1_flat_mapping_eval :
    (load "name: Test\ncount: 5\n".data).sizeN = 1 ∧
    (load "name: Test\ncount: 5\n".data).IsNull = true ∧
    (load "name: Test\ncount: 5\n".data).IsMap = false ∧
    (load "name: Test\ncount: 5\n".data).HasKey "name".data = false ∧
    (load "name: Test\ncount: 5\n".data).getKey "name".data = nilNode ∧
    ((load "name: Test\ncount: 5\n".data).getKey "name".data).as_string = [] ∧
    ((load "name: Test\ncount: 5\n".data).getKey "count".data).as_int = 0 ∧
    ((load "name: Test\ncount: 5\n".data).getKey "count".data).as_bool = false :=
  ⟨by decide, by decide, by decide, by decide, rfl, by decide, by decide, by decide⟩

/-!  C3: the copy constructor and key side-nodes. -/

/-- Claim C3: (code_bug).  `Node::Node(const Node&)` initialises `map_key_` to
null and never copies it, at any depth, so a copy is not structurally equal to
the original whenever any node of the original carries a key side-node: for
the internal tree of `k: v`, the original answers `HasKey("k")` with true and
has `size()` 0 (its child is keyed), while the copy answers false and has
`size()` 1.  (Mutation independence, the other half of the claim, is immediate
for the embedded pure values: the copy shares no state with the original.) -/
theorem c3_copy_drops_keys :
    c3doc.HasKey "k".data = true ∧
    (copyNode c3doc).HasKey "k".data = false ∧
    c3doc.sizeN = 0 ∧
    (copyNode c3doc).sizeN = 1 ∧
    keylessB (copyNode c3doc) = true :=
  ⟨by decide, by decide, by decide, by decide, by decide⟩

/-!  C6: `as_bool` and node kinds. -/

/-- Claim C6 counterexample:.  A mapping-opener node is Map-kind but stores its
key text in `scalar_value_`, and `as_bool()` tests only `scalar_value_`:
parsing `"true: x\nzzz\n"` yields a root whose first child is a Map node on
which `as_bool()` returns true, contradicting "returns false for every
non-scalar node". -/
theorem c6_counterexample :
    ((load "true: x\nzzz\n".data).getIdx 0).as_bool = true ∧
    ((load "true: x\nzzz\n".data).getIdx 0).IsScalar = false ∧
    ((load "true: x\nzzz\n".data).getIdx 0).IsMap = true :=
  ⟨by decide, by decide, by decide⟩

/-- Claim C6: (corrected).  `as_bool()` returns true iff the node's scalar text
is present and case-sensitively equals `"true"`, `"yes"` or `"1"`, regardless
of the node's kind.  Nodes with no scalar text (all Null nodes in particular)
give false, but a non-scalar node that carries scalar text — e.g. a Map node
created as a mapping opener, which stores its key text — can return true. -/
theorem c6_as_bool_spec (n : Node) :
    n.as_bool = true ↔
      ∃ s, n.scalar_value_ = Option.some s ∧
        (s = "true".data ∨ s = "yes".data ∨ s = "1".data) := by
  rcases n with ⟨t, tg, sc, cs, k⟩
  cases sc with
  | none => simp [Node.as_bool, Node.scalar_value_]
  | some s => simp [Node.as_bool, Node.scalar_value_, or_assoc]

/-!  C7: positional indexing. -/

theorem sizeAux_eq_unkeyed_length : ∀ l : NodeList, sizeAux l = (unkeyed l).length
  | .nil => rfl
  | .cons h t => by
      simp only [sizeAux, unkeyed]
      cases hk : h.map_key_.isSome <;> simp [hk, sizeAux_eq_unkeyed_length t] <;> omega

theorem getIdxAux_spec : ∀ (l : NodeList) (i : Nat),
    ((unkeyed l).length ≤ i → getIdxAux l i = nilNode) ∧
    (∀ c, (unkeyed l)[i]? = some c → getIdxAux l i = copyNode c)
  | .nil, i => ⟨fun _ => rfl, fun c hc => by simp [unkeyed] at hc⟩
  | .cons h t, i => by
      simp only [unkeyed, getIdxAux]
      cases hk : h.map_key_.isSome with
      | true => simpa using getIdxAux_spec t i
      | false =>
          simp only [Bool.false_eq_true, if_false]
          cases i with
          | zero =>
              refine ⟨fun hle => by simp at hle, fun c hc => ?_⟩
              simp at hc
              simp [hc]
          | succ j =>
              refine ⟨fun hle => ?_, fun c hc => ?_⟩
              · simp only [if_neg (Nat.succ_ne_zero j), Nat.succ_sub_one]
                exact (getIdxAux_spec t j).1 (by simpa using hle)
              · simp only [if_neg (Nat.succ_ne_zero j), Nat.succ_sub_one]
                exact (getIdxAux_spec t j).2 c (by simpa using hc)

/-- Claim C7 counterexample:.  Positional `operator[]` returns `*child` by value,
i.e. through the copy constructor, which strips key side-nodes at every depth;
so for a node whose first unkeyed child has a keyed grandchild, `n[0]` is not
that child: the child answers `HasKey("kk")` with true, `n[0]` with false. -/
theorem c7_counterexample :
    c7node.sizeN = 1 ∧
    c7node.unkeyedChildren = [c7child] ∧
    c7node.getIdx 0 ≠ c7child := by
  refine ⟨by decide, rfl, fun h => ?_⟩
  have h2 := congrArg (fun m => Node.HasKey m "kk".data) h
  simp only at h2
  exact absurd h2 (by decide)

/-- Claim C7: (corrected).  `size()` counts exactly the children whose key is
absent; positional `operator[](i)` returns a Null node when `i ≥ size()`,
never signalling failure, and when `i < size()` it returns the `i`-th unkeyed
child *as copied by the copy constructor* (keyed children are skipped; the
returned copy has all key side-nodes stripped, per `Node::Node(const Node&)`). -/
theorem c7_positional_index (n : Node) (i : Nat) :
    n.sizeN = n.unkeyedChildren.length ∧
    (n.sizeN ≤ i → n.getIdx i = nilNode) ∧
    (∀ c, n.unkeyedChildren[i]? = some c → n.getIdx i = copyNode c) := by
  refine ⟨sizeAux_eq_unkeyed_length n.children, fun hle => ?_, fun c hc => ?_⟩
  · exact (getIdxAux_spec n.children i).1
      (by rw [← sizeAux_eq_unkeyed_length]; exact hle)
  · exact (getIdxAux_spec n.children i).2 c hc

/-- Witness for `c7_positional_index` at a concrete node with one unkeyed
child: both hypothesis-bearing conjuncts are discharged at explicit inputs. -/
theorem c7_positional_index_witness :
    c3doc.getIdx 5 = nilNode ∧ (copyNode c3doc).getIdx 0 = copyNode (copyNode c3val) :=
  ⟨(c7_positional_index c3doc 5).2.1 (by decide),
   (c7_positional_index (copyNode c3doc) 0).2.2 (copyNode c3val) (by rfl)⟩

/-!  C8 counterexample (the amended C8 theorem follows the C4 section). -/

/-- Claim C8 counterexample:.  On a node with a Null-kind keyed child — a value
of the `Node` data type, constructible inside the parser where `map_key_` is
assignable — `HasKey("k")` is true while `n["k"]` is a Null-kind node, so
"`HasKey(k)` iff `n[k]` is not Null" fails as stated for every node. -/
theorem c8_counterexample :
    c8node.HasKey "k".data = true ∧ (c8node.getKey "k".data).IsNull = true :=
  ⟨by decide, by decide⟩

/-!  C9: `LoadFile` error behaviour. -/

/-- Claim C9 counterexample:.  A short read does not raise: with `fopen` and
`malloc` succeeding, `ftell` reporting 10 bytes but `fread` returning 1 byte,
`LoadFile` silently parses the truncated content and succeeds, while the claim
says an allocation/read error is raised "exactly when … reads short". -/
theorem c9_counterexample :
    c9env.bytesRead.length < c9env.fileSize ∧
    loadFile c9env = Except.ok (load "a".data) :=
  ⟨by decide, rfl⟩

/-- Claim C9: (corrected).  `LoadFile` raises the I/O error exactly when the file
cannot be opened, the allocation error exactly when `malloc` fails, and these
are the only error kinds; a short `fread` is *not* reported: the buffer is
NUL-terminated after the bytes actually read and handed to `Load` (which stops
at the first embedded NUL, via `strlen`). -/
theorem c9_loadfile_errors (env : FileEnv) :
    ((∃ e, loadFile env = Except.error e) ↔ (env.openOk = false ∨ env.allocOk = false)) ∧
    (loadFile env = Except.error ⟨"Failed to open file".data⟩ ↔ env.openOk = false) ∧
    (loadFile env = Except.error ⟨"Failed to allocate memory".data⟩ ↔
      (env.openOk = true ∧ env.allocOk = false)) ∧
    (env.openOk = true → env.allocOk = true →
      loadFile env = Except.ok (load (env.bytesRead.takeWhile (fun c => c ≠ '\x00')))) := by
  rcases env with ⟨op, sz, al, bs⟩
  cases op <;> cases al <;>
    simp [loadFile, ExceptionM.mk.injEq] <;> decide

/-- Witness for `c9_loadfile_errors`: the delegation conjunct discharged at a
concrete environment. -/
theorem c9_loadfile_errors_witness :
    loadFile ⟨true, 0, true, "q".data⟩ =
      Except.ok (load ("q".data.takeWhile (fun c => c ≠ '\x00'))) :=
  (c9_loadfile_errors ⟨true, 0, true, "q".data⟩).2.2.2 rfl rfl

/-!  C4: the returned tree never carries key side-nodes. -/

mutual
theorem keylessB_copyNode : ∀ n : Node, keylessB (copyNode n) = true
  | .mk _ _ _ cs _ => by
    simp only [copyNode, keylessB, NodeOpt.isNone, Bool.true_and]
    exact keylessListB_copyList cs
theorem keylessListB_copyList : ∀ l : NodeList, keylessListB (copyList l) = true
  | .nil => rfl
  | .cons h t => by
    simp only [copyList, keylessListB, Bool.and_eq_true]
    exact ⟨keylessB_copyNode h, keylessListB_copyList t⟩
end

/-- Every exit of the `Load` loop returns `*state.root`, i.e. a copy. -/
theorem loadLoop_is_copy : ∀ (fuel : Nat) (st : PState) (rem : List Char),
    ∃ n, loadLoop fuel st rem = copyNode n
  | 0, st, _ => ⟨st.root, rfl⟩
  | fuel + 1, st, rem => by
      simp only [loadLoop]
      split
      · exact ⟨st.root, rfl⟩
      · split
        · exact loadLoop_is_copy fuel st _
        · exact loadLoop_is_copy fuel _ _

theorem load_keylessB (s : List Char) : keylessB (load s) = true := by
  obtain ⟨n, hn⟩ := loadLoop_is_copy (s.length + 1) initPS s
  rw [load, hn]
  exact keylessB_copyNode n

theorem load_keylessListB (s : List Char) : keylessListB (load s).children = true := by
  have hk := load_keylessB s
  rcases hload : load s with ⟨t, tg, sc, cs, k⟩
  rw [hload] at hk
  simp only [keylessB, Bool.and_eq_true] at hk
  exact hk.2

theorem hasKeyAux_keyless : ∀ (l : NodeList) (k : List Char),
    keylessListB l = true → hasKeyAux l k = false
  | .nil, _, _ => rfl
  | .cons h t, k, hl => by
      simp only [keylessListB, Bool.and_eq_true] at hl
      obtain ⟨hh, ht⟩ := hl
      rcases h with ⟨ty, tg, sc, cs, mkk⟩
      simp only [keylessB, Bool.and_eq_true] at hh
      cases mkk with
      | none => simpa [hasKeyAux, Node.map_key_] using hasKeyAux_keyless t k ht
      | some kn => simp [NodeOpt.isNone] at hh

theorem getKeyAux_keyless : ∀ (l : NodeList) (k : List Char),
    keylessListB l = true → getKeyAux l k = nilNode
  | .nil, _, _ => rfl
  | .cons h t, k, hl => by
      simp only [keylessListB, Bool.and_eq_true] at hl
      obtain ⟨hh, ht⟩ := hl
      rcases h with ⟨ty, tg, sc, cs, mkk⟩
      simp only [keylessB, Bool.and_eq_true] at hh
      cases mkk with
      | none => simpa [getKeyAux, Node.map_key_] using getKeyAux_keyless t k ht
      | some kn => simp [NodeOpt.isNone] at hh

theorem sizeAux_keyless : ∀ l : NodeList, keylessListB l = true → sizeAux l = l.length
  | .nil, _ => rfl
  | .cons h t, hl => by
      simp only [keylessListB, Bool.and_eq_true] at hl
      obtain ⟨hh, ht⟩ := hl
      rcases h with ⟨ty, tg, sc, cs, mkk⟩
      simp only [keylessB, Bool.and_eq_true] at hh
      cases mkk with
      | none =>
          simp only [sizeAux, NodeList.length, Node.map_key_, NodeOpt.isSome,
            Bool.false_eq_true, if_false]
          rw [sizeAux_keyless t ht]
      | some kn => simp [NodeOpt.isNone] at hh

/-- Claim C4: (confirmed).  `Parser::Load` returns `*state.root` by value through
the copy constructor, which leaves `map_key_` unset on every copied node; so
no node anywhere in the returned tree carries a key side-node, `HasKey` is
false for every key, keyed `operator[]` returns the Null node for every key,
and `size()` counts all children. -/
theorem c4_load_strips_keys (s : List Char) :
    keylessB (load s) = true ∧
    (∀ k, (load s).HasKey k = false) ∧
    (∀ k, (load s).getKey k = nilNode) ∧
    (load s).sizeN = (load s).children.length := by
  refine ⟨load_keylessB s, fun k => ?_, fun k => ?_, ?_⟩
  · exact hasKeyAux_keyless _ k (load_keylessListB s)
  · exact getKeyAux_keyless _ k (load_keylessListB s)
  · exact sizeAux_keyless _ (load_keylessListB s)

/-!  C8: `HasKey` versus keyed lookup. -/

theorem copyNode_type : ∀ n : Node, (copyNode n).type_ = n.type_
  | .mk _ _ _ _ _ => rfl

theorem hasKey_iff_aux : ∀ (l : NodeList) (k : List Char),
    (∀ c ∈ l.toList, c.map_key_.isSome = true → c.IsNull = false) →
    (hasKeyAux l k = true ↔ (getKeyAux l k).IsNull = false)
  | .nil, k, _ => by simp [hasKeyAux, getKeyAux, nilNode, Node.IsNull, Node.type_]
  | .cons h t, k, hwf => by
      have hh : h.map_key_.isSome = true → h.IsNull = false :=
        hwf h (by simp [NodeList.toList])
      have htl : ∀ c ∈ t.toList, c.map_key_.isSome = true → c.IsNull = false :=
        fun c hc => hwf c (by simp [NodeList.toList]; exact Or.inr hc)
      rcases h with ⟨ty, tg, sc, cs, mkk⟩
      cases mkk with
      | none =>
          simpa only [hasKeyAux, getKeyAux, Node.map_key_] using hasKey_iff_aux t k htl
      | some kn =>
          cases hsc : kn.scalar_value_ with
          | none =>
              simp only [hasKeyAux, getKeyAux, Node.map_key_, hsc]
              exact hasKey_iff_aux t k htl
          | some ks =>
              by_cases hks : ks = k
              · have hnn : (copyNode (Node.mk ty tg sc cs (.some kn))).IsNull = false := by
                  rw [Node.IsNull, copyNode_type]
                  exact hh (by simp [Node.map_key_, NodeOpt.isSome])
                simp [hasKeyAux, getKeyAux, Node.map_key_, hsc, hks, hnn]
              · simp only [hasKeyAux, getKeyAux, Node.map_key_, hsc, if_neg hks]
                exact hasKey_iff_aux t k htl

/-- Claim C8: (corrected).  For every node whose keyed children are all
non-Null-kind — which includes every node the parser builds, since keyed
children are created only as Scalar leaves or Map openers — `HasKey(k)` is
true iff keyed `operator[]` does not return a Null-kind node.  Moreover, for
any parsed document `d` and *every* key `k` (present at the top level or not),
`d[k].IsNull()` is true and `d.HasKey(k)` is false, because the by-value
return of `Load` strips all key side-nodes. -/
theorem c8_haskey_iff_notnull (n : Node) (k : List Char)
    (hwf : ∀ c ∈ n.children.toList, c.map_key_.isSome = true → c.IsNull = false) :
    (n.HasKey k = true ↔ (n.getKey k).IsNull = false) ∧
    (∀ (s : List Char) (k2 : List Char),
      (load s).HasKey k2 = false ∧ ((load s).getKey k2).IsNull = true) := by
  refine ⟨hasKey_iff_aux n.children k hwf, fun s k2 => ?_⟩
  refine ⟨hasKeyAux_keyless _ k2 (load_keylessListB s), ?_⟩
  rw [Node.getKey, getKeyAux_keyless _ k2 (load_keylessListB s)]
  rfl

/-- Witness for `c8_haskey_iff_notnull` at `n = c3doc`, `k = "k"` (the keyed
child is Scalar-kind, so the hypothesis holds and is discharged by `decide`). -/
theorem c8_haskey_iff_notnull_witness :
    (c3doc.HasKey "k".data = true ↔ (c3doc.getKey "k".data).IsNull = false) ∧
    (∀ (s : List Char) (k2 : List Char),
      (load s).HasKey k2 = false ∧ ((load s).getKey k2).IsNull = true) :=
  c8_haskey_iff_notnull c3doc "k".data (by decide)

/-!  C2: `Load` terminates within `length` iterations and the indent stack
never leaves its first two slots. -/

theorem readLineAux_len : ∀ (rem : List Char) (i : Nat),
    (readLineAux i rem).2.length ≤ rem.length
  | [], _ => by simp [readLineAux]
  | c :: rest, i => by
      simp only [readLineAux]
      by_cases hnl : c = '\n'
      · simp [hnl]
      · simp only [hnl, if_false]
        by_cases hcap : 4095 ≤ i
        · simp [hcap]
        · simp only [hcap, if_false, List.length_cons]
          have := readLineAux_len rest (i + 1)
          omega

theorem dropNl_cons_ne (c : Char) (r : List Char) (h : c ≠ '\n') :
    dropNl (c :: r) = c :: r := by
  unfold dropNl
  split
  · next heq =>
      injection heq with h1 h2
      exact absurd h1 h
  · rfl

theorem dropNl_len (l : List Char) : (dropNl l).length ≤ l.length := by
  cases l with
  | nil => exact Nat.le_refl _
  | cons c r =>
      by_cases hc : c = '\n'
      · subst hc
        show r.length ≤ r.length + 1
        omega
      · rw [dropNl_cons_ne c r hc]

theorem readLine_len (rem : List Char) (h : rem ≠ []) :
    (readLine rem).2.length < rem.length := by
  cases rem with
  | nil => exact absurd rfl h
  | cons c rest =>
      by_cases hnl : c = '\n'
      · subst hnl
        show (dropNl (readLineAux 0 ('\n' :: rest)).2).length < _
        simp [readLineAux, dropNl]
      · show (dropNl (readLineAux 0 (c :: rest)).2).length < _
        have hred : readLineAux 0 (c :: rest) =
            (c :: (readLineAux 1 rest).1, (readLineAux 1 rest).2) := by
          simp [readLineAux, hnl]
        rw [hred]
        have h1 := dropNl_len (readLineAux 1 rest).2
        have h2 := readLineAux_len rest 1
        simp only [List.length_cons]
        omega

theorem skipWs_len : ∀ l : List Char, (skipWs l).length ≤ l.length := by
  intro l
  induction l with
  | nil => exact Nat.le_refl _
  | cons x xs ih =>
      simp only [skipWs, List.dropWhile_cons]
      by_cases hx : isCSpace x = true
      · rw [if_pos hx]
        exact Nat.le_trans ih (by simp)
      · rw [if_neg hx]

theorem loadLoop_irrel : ∀ (f1 f2 : Nat) (st : PState) (rem : List Char),
    rem.length < f1 → rem.length < f2 → loadLoop f1 st rem = loadLoop f2 st rem := by
  intro f1
  induction f1 with
  | zero => intro f2 st rem h1 _; omega
  | succ f ih =>
      intro f2 st rem h1 h2
      cases f2 with
      | zero => omega
      | succ g =>
          simp only [loadLoop]
          by_cases hrem : rem = []
          · simp [hrem]
          · simp only [hrem, if_false]
            have hlen : (skipWs (readLine rem).2).length < rem.length :=
              Nat.lt_of_le_of_lt (skipWs_len _) (readLine_len rem hrem)
            by_cases hskip : skipWs (readLine rem).2 = [] ∨ (readLine rem).1 = [] ∨
                (readLine rem).1.head? = some '#'
            · simp only [hskip, if_true]
              exact ih g st _ (by omega) (by omega)
            · simp only [hskip, if_false]
              exact ih g _ _ (by omega) (by omega)

theorem skipWs_head_not_space : ∀ (l : List Char) (c : Char) (r : List Char),
    skipWs l = c :: r → isCSpace c = false := by
  intro l
  induction l with
  | nil => intro c r h; simp [skipWs] at h
  | cons x xs ih =>
      intro c r h
      simp only [skipWs, List.dropWhile_cons] at h
      by_cases hx : isCSpace x = true
      · rw [if_pos hx] at h
        exact ih c r h
      · rw [if_neg hx] at h
        cases h
        exact Bool.not_eq_true _ ▸ (by simpa using hx)

theorem getIndentM_skipWs (x : List Char) : getIndentM (skipWs x) = 0 := by
  rcases hs : skipWs x with _ | ⟨c, r⟩
  · rfl
  · have hc := skipWs_head_not_space x c r hs
    have h1 : c ≠ ' ' := by
      intro h; rw [h] at hc; exact absurd hc (by decide)
    have h2 : c ≠ '\t' := by
      intro h; rw [h] at hc; exact absurd hc (by decide)
    simp [getIndentM, h1, h2]

theorem popLoop_zero_stack (root : Node) (path : List Step)
    (s : List Int) (hs : s = [(-1 : Int)] ∨ s = [(0 : Int), -1]) :
    (popLoop root 0 s path).1 = [(-1 : Int)] := by
  rcases hs with h | h <;> subst h
  · rfl
  · show (popLoop root 0 [(0 : Int), -1] path).1 = [(-1 : Int)]
    rw [popLoop]
    norm_num
    rfl

/-- Every `ProcessLine` call made by the `Load` loop (the indent argument is
always `GetIndent` of a whitespace-skipped suffix, hence always 0) keeps the
indent stack at `[-1]` or `[0, -1]`: `indent_top` never exceeds 1, far below
the 64-slot capacity of `indent_stack`, for any nesting depth of the input. -/
theorem processLine_stack (st : PState) (line : List Char) (x : List Char)
    (hst : st.stack = [(-1 : Int)] ∨ st.stack = [(0 : Int), -1]) :
    (processLine st line (getIndentM (skipWs x))).stack = [(-1 : Int)] ∨
      (processLine st line (getIndentM (skipWs x))).stack = [(0 : Int), -1] := by
  rw [getIndentM_skipWs]
  have hpop := popLoop_zero_stack st.root st.path st.stack hst
  unfold processLine
  by_cases hop : openerCond line (popLoop st.root 0 st.stack st.path).1 0
  · rw [if_pos hop]
    right
    show (0 : Int) :: (popLoop st.root 0 st.stack st.path).1 = [0, -1]
    rw [hpop]
  · rw [if_neg hop]
    by_cases hseq : seqItemCond (lineValueStart line)
    · rw [if_pos hseq]; left; exact hpop
    · rw [if_neg hseq]; left; exact hpop

/-- Claim C2: (confirmed).  For every input string, `Parser::Load` terminates
normally and returns a document tree, never raising an error: the loop
finishes within `length` iterations (every iteration consumes at least one
character, so any fuel beyond the input length yields the same result — the
fuel-exhaustion branch is never taken), the `Load`/`ProcessLine` path contains
no `throw` (`ParseError` is never called), and the fixed 64-entry indent stack
is never exceeded, whatever the indentation pattern, nesting depth or line
length: `indent_top` stays at 0 or 1 (`processLine_stack` conjunct). -/
theorem c2_load_total (content : List Char) (fuel : Nat)
    (h : content.length < fuel) :
    loadLoop fuel initPS content = load content ∧
    (∀ (st : PState) (line x : List Char),
      (st.stack = [(-1 : Int)] ∨ st.stack = [(0 : Int), -1]) →
      ((processLine st line (getIndentM (skipWs x))).stack = [(-1 : Int)] ∨
        (processLine st line (getIndentM (skipWs x))).stack = [(0 : Int), -1])) :=
  ⟨loadLoop_irrel fuel (content.length + 1) initPS content h (Nat.lt_succ_self _),
   fun st line x hst => processLine_stack st line x hst⟩

/-- Witness for `c2_load_total` at the two-line document and fuel 100. -/
theorem c2_load_total_witness :
    loadLoop 100 initPS "a: 1\nb\n".data = load "a: 1\nb\n".data :=
  (c2_load_total "a: 1\nb\n".data 100 (by decide)).1

/-!  C5: comment/blank-line transparency.  Supporting lemmas about how one
`Load` iteration interacts with list concatenation. -/

theorem skipWs_cons_not_space (c : Char) (r : List Char) (h : isCSpace c = false) :
    skipWs (c :: r) = c :: r := by
  simp [skipWs, List.dropWhile_cons, h]

theorem skipWs_append_all (w r : List Char) (hw : ∀ c ∈ w, isCSpace c = true) :
    skipWs (w ++ r) = skipWs r := by
  induction w with
  | nil => rfl
  | cons x xs ih =>
      have hx : isCSpace x = true := hw x (List.mem_cons_self x xs)
      simp only [List.cons_append, skipWs, List.dropWhile_cons, hx, if_true]
      exact ih (fun c hc => hw c (List.mem_cons_of_mem x hc))

theorem skipWs_append_of_ne (q t : List Char) (h : skipWs q ≠ []) :
    skipWs (q ++ t) = skipWs q ++ t := by
  induction q with
  | nil => exact absurd rfl h
  | cons x xs ih =>
      by_cases hx : isCSpace x = true
      · simp only [skipWs, List.cons_append, List.dropWhile_cons, hx, if_true] at h ⊢
        exact ih h
      · rw [List.cons_append]
        rw [skipWs_cons_not_space x (xs ++ t) (by simpa using hx),
          skipWs_cons_not_space x xs (by simpa using hx)]
        rfl

theorem skipWs_append_of_nil (q t : List Char) (h : skipWs q = []) :
    skipWs (q ++ t) = skipWs t := by
  induction q with
  | nil => rfl
  | cons x xs ih =>
      by_cases hx : isCSpace x = true
      · simp only [skipWs, List.cons_append, List.dropWhile_cons, hx, if_true] at h ⊢
        exact ih h
      · rw [skipWs_cons_not_space x xs (by simpa using hx)] at h
        exact absurd h (by simp)

theorem readLineAux_append_nl (l : List Char) : ∀ (i : Nat) (t : List Char),
    '\n' ∉ l → i + l.length ≤ 4095 →
    readLineAux i (l ++ '\n' :: t) = (l, '\n' :: t) := by
  induction l with
  | nil => intro i t _ _; rfl
  | cons c r ih =>
      intro i t hmem hlen
      have hc : c ≠ '\n' := fun h => hmem (h ▸ List.mem_cons_self c r)
      have hcap : ¬(4095 ≤ i) := by simp only [List.length_cons] at hlen; omega
      simp only [List.cons_append, readLineAux, hc, if_false, hcap, List.append_eq]
      rw [ih (i + 1) t (fun h => hmem (List.mem_cons_of_mem c h))
        (by simp only [List.length_cons] at hlen; omega)]

theorem readLine_line (l t : List Char) (hmem : '\n' ∉ l) (hlen : l.length ≤ 4095) :
    readLine (l ++ '\n' :: t) = (l, t) := by
  simp only [readLine, readLineAux_append_nl l 0 t hmem (by omega)]
  rfl

theorem readLineAux_keep (q : List Char) : ∀ (i : Nat) (t : List Char), '\n' ∈ q →
    readLineAux i (q ++ t) = ((readLineAux i q).1, (readLineAux i q).2 ++ t) ∧
      (readLineAux i q).2 ≠ [] := by
  induction q with
  | nil => intro i t h; simp at h
  | cons c r ih =>
      intro i t hmem
      by_cases hc : c = '\n'
      · subst hc
        constructor
        · simp [readLineAux]
        · simp [readLineAux]
      · have hr : '\n' ∈ r := by
          rcases List.mem_cons.mp hmem with h | h
          · exact absurd h.symm hc
          · exact h
        by_cases hcap : 4095 ≤ i
        · constructor
          · simp [readLineAux, hc, hcap]
          · simp [readLineAux, hc, hcap]
        · obtain ⟨ih1, ih2⟩ := ih (i + 1) t hr
          constructor
          · simp only [List.cons_append, readLineAux, hc, if_false, hcap, List.append_eq, ih1]
          · simpa [readLineAux, hc, hcap] using ih2

theorem dropNl_append (l t : List Char) (h : l ≠ []) :
    dropNl (l ++ t) = dropNl l ++ t := by
  cases l with
  | nil => exact absurd rfl h
  | cons c r =>
      by_cases hc : c = '\n'
      · subst hc; rfl
      · rw [List.cons_append, dropNl_cons_ne c (r ++ t) hc, dropNl_cons_ne c r hc]
        rfl

theorem readLine_keep (q t : List Char) (h : '\n' ∈ q) :
    readLine (q ++ t) = ((readLine q).1, (readLine q).2 ++ t) := by
  obtain ⟨h1, h2⟩ := readLineAux_keep q 0 t h
  simp only [readLine, h1]
  rw [dropNl_append _ _ h2]

theorem readLineAux_suffix : ∀ (rem : List Char) (i : Nat),
    (readLineAux i rem).2 <:+ rem
  | [], _ => by simp [readLineAux]
  | c :: rest, i => by
      simp only [readLineAux]
      by_cases hnl : c = '\n'
      · simp [hnl]
      · simp only [hnl, if_false]
        by_cases hcap : 4095 ≤ i
        · simp [hcap]
        · simp only [hcap, if_false]
          exact (readLineAux_suffix rest (i + 1)).trans (List.suffix_cons c rest)

theorem dropNl_suffix (l : List Char) : dropNl l <:+ l := by
  cases l with
  | nil => exact List.suffix_refl _
  | cons c r =>
      by_cases hc : c = '\n'
      · subst hc; exact List.suffix_cons '\n' r
      · rw [dropNl_cons_ne c r hc]

theorem readLine_suffix (rem : List Char) : (readLine rem).2 <:+ rem :=
  (dropNl_suffix _).trans (readLineAux_suffix rem 0)

theorem skipWs_suffix (l : List Char) : skipWs l <:+ l :=
  List.dropWhile_suffix _

theorem endsNl_of_suffix (q s : List Char) (hq : endsNl q) (hs : s <:+ q)
    (hne : s ≠ []) : endsNl s := by
  obtain ⟨p, hp⟩ := hs
  rw [endsNl, ← hp] at hq
  rw [List.getLast?_append_of_ne_nil p hne] at hq
  exact hq

theorem mem_nl_of_endsNl (q : List Char) (hq : endsNl q) : '\n' ∈ q :=
  List.mem_of_mem_getLast? hq

/-- One iteration of the loop, at canonical fuel: the empty case. -/
theorem loadRun_nil (st : PState) : loadRun st [] = copyNode st.root := rfl

/-- One iteration of the loop, at canonical fuel: the skip branch. -/
theorem loadRun_skip (st : PState) (rem : List Char) (hne : rem ≠ [])
    (hc : skipWs (readLine rem).2 = [] ∨ (readLine rem).1 = [] ∨
      (readLine rem).1.head? = some '#') :
    loadRun st rem = loadRun st (skipWs (readLine rem).2) := by
  obtain ⟨n, hn⟩ : ∃ n, rem.length = n + 1 := by
    cases rem with
    | nil => exact absurd rfl hne
    | cons c r => exact ⟨r.length, by simp⟩
  have hlt : (skipWs (readLine rem).2).length < rem.length :=
    Nat.lt_of_le_of_lt (skipWs_len _) (readLine_len rem hne)
  show loadLoop (rem.length + 1) st rem = _
  rw [show rem.length + 1 = (rem.length) + 1 from rfl]
  simp only [loadLoop, hne, if_false, hc, if_true]
  exact loadLoop_irrel rem.length _ st _ hlt (Nat.lt_succ_self _)

/-- One iteration of the loop, at canonical fuel: the process branch. -/
theorem loadRun_proc (st : PState) (rem : List Char) (hne : rem ≠ [])
    (hc : ¬(skipWs (readLine rem).2 = [] ∨ (readLine rem).1 = [] ∨
      (readLine rem).1.head? = some '#')) :
    loadRun st rem =
      loadRun (processLine st (readLine rem).1 (getIndentM (skipWs (readLine rem).2)))
        (skipWs (readLine rem).2) := by
  have hlt : (skipWs (readLine rem).2).length < rem.length :=
    Nat.lt_of_le_of_lt (skipWs_len _) (readLine_len rem hne)
  show loadLoop (rem.length + 1) st rem = _
  simp only [loadLoop, hne, if_false, hc, if_false]
  exact loadLoop_irrel rem.length _ _ _ hlt (Nat.lt_succ_self _)

theorem load_eq_loadRun (content : List Char) : load content = loadRun initPS content := rfl

/-- A comment line (head `#`, no newline, within the 4096-byte buffer) at a
loop boundary is consumed whole and skipped. -/
theorem loadRun_comment_head (ts : PState) (c post : List Char)
    (h1 : c.head? = some '#') (h2 : '\n' ∉ c) (h3 : c.length ≤ 4095) :
    loadRun ts (c ++ '\n' :: post) = loadRun ts (skipWs post) := by
  have hne : c ++ '\n' :: post ≠ [] := by
    cases c with
    | nil => simp
    | cons a b => simp
  have hrl : readLine (c ++ '\n' :: post) = (c, post) := readLine_line c post h2 h3
  rw [loadRun_skip ts _ hne (by rw [hrl]; right; right; exact h1), hrl]

/-- The lockstep simulation: two runs whose remaining inputs share a prefix
`q` ending at a line boundary, and whose tails become indistinguishable after
whitespace skipping, produce the same tree. -/
theorem lockstep : ∀ (n : Nat) (q t1 t2 : List Char) (ts : PState),
    q.length ≤ n → q ≠ [] → endsNl q →
    (∀ ts2, loadRun ts2 (skipWs t1) = loadRun ts2 (skipWs t2)) →
    (skipWs t1 = [] ↔ skipWs t2 = []) →
    loadRun ts (q ++ t1) = loadRun ts (q ++ t2) := by
  intro n
  induction n with
  | zero =>
      intro q t1 t2 ts hlen hne _ _ _
      cases q with
      | nil => exact absurd rfl hne
      | cons a b => simp at hlen
  | succ m ih =>
      intro q t1 t2 ts hlen hne hnl hA hIff
      have hmem : '\n' ∈ q := mem_nl_of_endsNl q hnl
      have hkeep1 : readLine (q ++ t1) = ((readLine q).1, (readLine q).2 ++ t1) :=
        readLine_keep q t1 hmem
      have hkeep2 : readLine (q ++ t2) = ((readLine q).1, (readLine q).2 ++ t2) :=
        readLine_keep q t2 hmem
      have hq1ne : q ++ t1 ≠ [] := by cases q with | nil => exact absurd rfl hne | cons a b => simp
      have hq2ne : q ++ t2 ≠ [] := by cases q with | nil => exact absurd rfl hne | cons a b => simp
      have hq'len : (readLine q).2.length < q.length := readLine_len q hne
      by_cases hq'' : skipWs (readLine q).2 = []
      · -- the whitespace skip crosses the boundary into the tails
        have hsw1 : skipWs ((readLine q).2 ++ t1) = skipWs t1 :=
          skipWs_append_of_nil _ t1 hq''
        have hsw2 : skipWs ((readLine q).2 ++ t2) = skipWs t2 :=
          skipWs_append_of_nil _ t2 hq''
        by_cases hC : skipWs t1 = [] ∨ ((readLine q).1 = [] ∨ (readLine q).1.head? = some '#')
        · have hC2 : skipWs t2 = [] ∨ ((readLine q).1 = [] ∨ (readLine q).1.head? = some '#') := by
            rcases hC with h | h
            · exact Or.inl (hIff.mp h)
            · exact Or.inr h
          rw [loadRun_skip ts (q ++ t1) hq1ne
              (by rw [hkeep1]; simpa [hsw1, or_assoc] using hC),
            loadRun_skip ts (q ++ t2) hq2ne
              (by rw [hkeep2]; simpa [hsw2, or_assoc] using hC2)]
          rw [hkeep1, hkeep2]
          simp only []
          rw [hsw1, hsw2]
          exact hA ts
        · have hC2 : ¬(skipWs t2 = [] ∨ ((readLine q).1 = [] ∨ (readLine q).1.head? = some '#')) := by
            intro h
            rcases h with h | h
            · exact hC (Or.inl (hIff.mpr h))
            · exact hC (Or.inr h)
          rw [loadRun_proc ts (q ++ t1) hq1ne
              (by rw [hkeep1]; simpa [hsw1, or_assoc] using hC),
            loadRun_proc ts (q ++ t2) hq2ne
              (by rw [hkeep2]; simpa [hsw2, or_assoc] using hC2)]
          rw [hkeep1, hkeep2]
          simp only []
          rw [hsw1, hsw2, getIndentM_skipWs, getIndentM_skipWs]
          exact hA (processLine ts (readLine q).1 0)
      · -- the whitespace skip stays inside `q`
        have hq'ne : (readLine q).2 ≠ [] := by
          intro h; exact hq'' (by rw [h]; rfl)
        have hsw1 : skipWs ((readLine q).2 ++ t1) = skipWs (readLine q).2 ++ t1 :=
          skipWs_append_of_ne _ t1 hq''
        have hsw2 : skipWs ((readLine q).2 ++ t2) = skipWs (readLine q).2 ++ t2 :=
          skipWs_append_of_ne _ t2 hq''
        have hne1 : skipWs (readLine q).2 ++ t1 ≠ [] := by
          cases hsq : skipWs (readLine q).2 with
          | nil => exact absurd hsq hq''
          | cons a b => simp
        have hne2 : skipWs (readLine q).2 ++ t2 ≠ [] := by
          cases hsq : skipWs (readLine q).2 with
          | nil => exact absurd hsq hq''
          | cons a b => simp
        have hq''nl : endsNl (skipWs (readLine q).2) :=
          endsNl_of_suffix _ _
            (endsNl_of_suffix q _ hnl (readLine_suffix q) hq'ne)
            (skipWs_suffix _) hq''
        have hq''len : (skipWs (readLine q).2).length ≤ m :=
          Nat.le_trans (skipWs_len _) (by omega)
        by_cases hD : (readLine q).1 = [] ∨ (readLine q).1.head? = some '#'
        · rw [loadRun_skip ts (q ++ t1) hq1ne (by rw [hkeep1]; right; exact hD),
            loadRun_skip ts (q ++ t2) hq2ne (by rw [hkeep2]; right; exact hD)]
          rw [hkeep1, hkeep2]
          simp only []
          rw [hsw1, hsw2]
          exact ih _ t1 t2 ts hq''len hq'' hq''nl hA hIff
        · have hD1 : ¬(skipWs ((readLine q).2 ++ t1) = [] ∨
              ((readLine q).1 = [] ∨ (readLine q).1.head? = some '#')) := by
            rw [hsw1]
            intro h
            rcases h with h | h
            · exact hne1 h
            · exact hD h
          have hD2 : ¬(skipWs ((readLine q).2 ++ t2) = [] ∨
              ((readLine q).1 = [] ∨ (readLine q).1.head? = some '#')) := by
            rw [hsw2]
            intro h
            rcases h with h | h
            · exact hne2 h
            · exact hD h
          rw [loadRun_proc ts (q ++ t1) hq1ne
              (by rw [hkeep1]; simpa [or_assoc] using hD1),
            loadRun_proc ts (q ++ t2) hq2ne
              (by rw [hkeep2]; simpa [or_assoc] using hD2)]
          rw [hkeep1, hkeep2]
          simp only []
          rw [getIndentM_skipWs, getIndentM_skipWs, hsw1, hsw2]
          exact ih _ t1 t2 _ hq''len hq'' hq''nl hA hIff

/-- Claim C5: (corrected).  Transparency of inserted blank and comment lines,
with the boundary the code actually enforces:
* any all-whitespace text (so any number of blank lines, of any length)
  inserted after a newline-terminated nonempty prefix leaves the tree
  unchanged;
* a comment line (first character `#`, at most 4095 characters, so that it
  fits the 4096-byte `line_buffer`) inserted at a line boundary after a
  nonempty prefix, with some non-whitespace text following, leaves the tree
  unchanged.
Comment lines of 4096 characters or more are *not* transparent
(`c5_counterexample`), and insertion before the first line is excluded: a
first-line comment with leading whitespace is not skipped, because the skip
test reads `line_buffer[0]` and leading whitespace is only consumed by the
`SkipWhitespace` call of a previous iteration. -/
theorem c5_insertion_transparent :
    (∀ (pre w post : List Char), pre ≠ [] → endsNl pre →
      (∀ ch ∈ w, isCSpace ch = true) →
      load (pre ++ w ++ post) = load (pre ++ post)) ∧
    (∀ (pre c post : List Char), pre ≠ [] → endsNl pre →
      c.head? = some '#' → '\n' ∉ c → c.length ≤ 4095 → skipWs post ≠ [] →
      load (pre ++ c ++ '\n' :: post) = load (pre ++ post)) := by
  constructor
  · intro pre w post hne hnl hw
    rw [load_eq_loadRun, load_eq_loadRun, List.append_assoc]
    exact lockstep pre.length pre (w ++ post) post initPS (Nat.le_refl _) hne hnl
      (fun ts2 => by rw [skipWs_append_all w post hw])
      (by rw [skipWs_append_all w post hw])
  · intro pre c post hne hnl hh hm hl hsp
    have hcs : skipWs (c ++ '\n' :: post) = c ++ '\n' :: post := by
      cases c with
      | nil => simp at hh
      | cons a b =>
          have ha : a = '#' := by simpa using hh
          subst ha
          rw [List.cons_append]
          exact skipWs_cons_not_space _ _ (by decide)
    rw [load_eq_loadRun, load_eq_loadRun, List.append_assoc]
    refine lockstep pre.length pre (c ++ '\n' :: post) post initPS (Nat.le_refl _) hne hnl
      (fun ts2 => ?_) ?_
    · rw [hcs, loadRun_comment_head ts2 c post hh hm hl]
    · rw [hcs]
      constructor
      · intro h
        cases c with
        | nil => simp at hh
        | cons a b => simp at h
      · intro h
        exact absurd h hsp

/-- Witness for `c5_insertion_transparent`: a blank line `"  \n"` and a
comment line `"# c"` inserted between the entries of `"a: 1\nb\n"`. -/
theorem c5_insertion_transparent_witness :
    load ("a: 1\n".data ++ "  \n".data ++ "b\n".data) = load ("a: 1\n".data ++ "b\n".data) ∧
    load ("a: 1\n".data ++ "# c".data ++ '\n' :: "b\n".data) =
      load ("a: 1\n".data ++ "b\n".data) :=
  ⟨c5_insertion_transparent.1 "a: 1\n".data "  \n".data "b\n".data (by decide) rfl
      (by decide),
   c5_insertion_transparent.2 "a: 1\n".data "# c".data "b\n".data (by decide) rfl
      (by decide) (by decide) (by decide) (by decide)⟩

theorem readLineAux_stop (t : List Char) (i : Nat) (h : 4095 ≤ i) :
    readLineAux i t = ([], t) := by
  cases t with
  | nil => rfl
  | cons c r =>
      by_cases hc : c = '\n'
      · simp [readLineAux, hc]
      · simp [readLineAux, hc, h]

theorem readLineAux_replicate : ∀ (k i : Nat) (t : List Char), 4095 ≤ i + k →
    readLineAux i (List.replicate k 'x' ++ t) =
      (List.replicate (4095 - i) 'x', List.replicate (k - (4095 - i)) 'x' ++ t) := by
  intro k
  induction k with
  | zero =>
      intro i t h
      simp only [Nat.add_zero] at h
      rw [List.replicate_zero, List.nil_append, readLineAux_stop t i h,
        show 4095 - i = 0 by omega]
      simp
  | succ j ih =>
      intro i t h
      rw [List.replicate_succ, List.cons_append]
      by_cases hcap : 4095 ≤ i
      · rw [readLineAux_stop _ i hcap]
        rw [show 4095 - i = 0 by omega]
        simp [List.replicate_succ]
      · have hstep : readLineAux i ('x' :: (List.replicate j 'x' ++ t)) =
            ('x' :: (readLineAux (i + 1) (List.replicate j 'x' ++ t)).1,
              (readLineAux (i + 1) (List.replicate j 'x' ++ t)).2) := by
          simp [readLineAux, hcap]
        rw [hstep, ih (i + 1) t (by omega)]
        rw [show 4095 - i = (4095 - (i + 1)) + 1 by omega]
        rw [List.replicate_succ]
        rw [show j + 1 - (4095 - (i + 1) + 1) = j - (4095 - (i + 1)) by omega]

theorem readLineAux_cons_step (i : Nat) (c : Char) (rest : List Char)
    (h1 : ¬c = '\n') (h2 : ¬4095 ≤ i) :
    readLineAux i (c :: rest) =
      (c :: (readLineAux (i + 1) rest).1, (readLineAux (i + 1) rest).2) := by
  simp only [readLineAux, h1, if_false, h2]

theorem readLine_c5comment (t : List Char) :
    readLine (c5comment ++ '\n' :: t) =
      ('#' :: List.replicate 4094 'x', 'x' :: '\n' :: t) := by
  have e1 : c5comment ++ '\n' :: t = '#' :: (List.replicate 4095 'x' ++ '\n' :: t) := rfl
  have ha : readLineAux 0 (c5comment ++ '\n' :: t) =
      ('#' :: List.replicate 4094 'x', 'x' :: '\n' :: t) := by
    rw [e1]
    rw [readLineAux_cons_step 0 '#' _ (by decide) (by omega)]
    rw [readLineAux_replicate 4095 1 _ (by omega)]
    rw [show (4095 : Nat) - 1 = 4094 from by norm_num]
    rw [show (4095 : Nat) - 4094 = 1 from by norm_num]
    rw [List.replicate_one]
    rfl
  rw [readLine, ha]
  rw [dropNl_cons_ne _ _ (by decide)]

/-- Claim C5 counterexample:.  Inserting a 4096-character comment line (first
character `#`) between the two entries of `"- a\n- b\n"` changes the tree:
`ReadToEndOfLine` stops after 4095 characters (the 4096-byte `line_buffer`),
the skip test sees `#` and discards only that prefix, and the leftover `x` of
the comment is then parsed as an entry of its own, adding a child — `size()`
is 2 instead of 1. -/
theorem c5_counterexample :
    (load c5mod).sizeN = 2 ∧ (load c5orig).sizeN = 1 ∧ load c5mod ≠ load c5orig := by
  have horig : (load c5orig).sizeN = 1 := by decide
  have hT : c5mod = "- a".data ++ '\n' :: (c5comment ++ '\n' :: "- b\n".data) := rfl
  have hTne : c5comment ++ '\n' :: "- b\n".data ≠ [] := by
    intro h
    have e1 : c5comment ++ '\n' :: "- b\n".data =
        '#' :: (List.replicate 4095 'x' ++ '\n' :: "- b\n".data) := rfl
    rw [e1] at h
    exact List.cons_ne_nil _ _ h
  have hskipT : skipWs (c5comment ++ '\n' :: "- b\n".data) =
      c5comment ++ '\n' :: "- b\n".data := by
    have e1 : c5comment ++ '\n' :: "- b\n".data =
        '#' :: (List.replicate 4095 'x' ++ '\n' :: "- b\n".data) := rfl
    rw [e1, skipWs_cons_not_space _ _ (by decide)]
  have hrl1 : readLine c5mod = ("- a".data, c5comment ++ '\n' :: "- b\n".data) := by
    rw [hT]
    exact readLine_line _ _ (by decide) (by decide)
  have hmod : (load c5mod).sizeN = 2 := by
    rw [load_eq_loadRun]
    rw [loadRun_proc initPS c5mod (by rw [hT]; simp)
      (by
        rw [hrl1]
        simp only [hskipT]
        push_neg
        refine ⟨hTne, by decide, by decide⟩)]
    rw [hrl1]
    simp only [hskipT]
    have hind : getIndentM (c5comment ++ '\n' :: "- b\n".data) = 0 := rfl
    rw [hind]
    rw [loadRun_skip _ _ hTne
      (by rw [readLine_c5comment]; right; right; rfl)]
    rw [readLine_c5comment]
    simp only []
    rw [skipWs_cons_not_space _ _ (by decide)]
    decide
  refine ⟨hmod, horig, fun h => ?_⟩
  have h2 := congrArg Node.sizeN h
  rw [hmod, horig] at h2
  exact absurd h2 (by decide)

end SMYaml
